import Mathlib

/-!
Verification of the frequency-based duplicate detector and the other
small algorithms of the repository: the `.count()`-based duplicate scan
and the set comprehension from the flow / functional-programming
scripts, the commented-out dictionary-counting original attempt, the
`MyGen` iterator class with its class-level `current` attribute, the
`highest_even` scan, and the two Fibonacci implementations.
-/

namespace Learning

variable {α : Type} [DecidableEq α]

/-- Python `some_list.count(value)`: number of occurrences of
`value` in the list. -/
def pycount (L : List α) (value : α) : Nat := List.count value L

/-- The loop of the active duplicate scan in `flow/pixel_exercise.py`:
`for value in some_list: if some_list.count(value) > 1 and value not in
duplicates: duplicates.append(value)`.  `L` is the whole list being
scanned, the first argument is the `duplicates` accumulator, the second
the remaining values. -/
def dupLoop (L : List α) : List α → List α → List α
  | duplicates, [] => duplicates
  | duplicates, value :: rest =>
      dupLoop L
        (if 1 < pycount L value ∧ value ∉ duplicates
         then duplicates ++ [value] else duplicates) rest

/-- The active `.count()`-based duplicate scan of
`flow/pixel_exercise.py` (lines 53-57). -/
def find_duplicates (L : List α) : List α := dupLoop L [] L

/-- The set comprehension of `functional_programming/comp_ex.py`:
`{char for char in some_list if some_list.count(char) > 1}`.  A Python
set has no specified iteration order, so only its contents are modelled,
as a `Finset`. -/
def duplicates_set (L : List α) : Finset α :=
  (L.filter (fun char => 1 < pycount L char)).toFinset

/-- A possible result of `list(s)` for a Python set `s`: any repeat-free
listing of the elements of the set.  Iteration order of a Python set is
unspecified (hash-dependent), so every such listing is a possible
observable output. -/
def IsSetListing (s : Finset α) (out : List α) : Prop :=
  out.Nodup ∧ out.toFinset = s

/-- First-occurrence deduplication, the order-keeping skeleton shared by
the scans: keep each value the first time it is seen. -/
def dedupLoop : List α → List α → List α
  | seen, [] => seen
  | seen, value :: rest =>
      dedupLoop (if value ∈ seen then seen else seen ++ [value]) rest

/-- The distinct values of `L` in order of first occurrence. -/
def firstOccs (L : List α) : List α := dedupLoop [] L

/-- Running the duplicate scan from accumulator `seen.filter (count > 1)`
computes the filtered first-occurrence deduplication: the scan appends a
value exactly when the dedup loop would, provided the value is a
duplicate of `L`. -/
theorem dupLoop_eq (L : List α) (rest : List α) :
    ∀ seen : List α,
      dupLoop L (seen.filter (fun x => decide (1 < pycount L x))) rest =
        (dedupLoop seen rest).filter (fun x => decide (1 < pycount L x)) := by
  induction rest with
  | nil => intro seen; rfl
  | cons value rest ih =>
      intro seen
      simp only [dupLoop, dedupLoop]
      by_cases hs : value ∈ seen
      · rw [if_pos hs]
        have hcond :
            ¬(1 < pycount L value ∧
              value ∉ seen.filter (fun x => decide (1 < pycount L x))) := by
          rintro ⟨hc, hnm⟩
          exact hnm (List.mem_filter.2 ⟨hs, by simpa using hc⟩)
        rw [if_neg hcond]
        exact ih seen
      · rw [if_neg hs]
        have hnm : value ∉ seen.filter (fun x => decide (1 < pycount L x)) :=
          fun h => hs (List.mem_filter.1 h).1
        by_cases hc : 1 < pycount L value
        · rw [if_pos ⟨hc, hnm⟩]
          have hstep :
              seen.filter (fun x => decide (1 < pycount L x)) ++ [value] =
                (seen ++ [value]).filter (fun x => decide (1 < pycount L x)) := by
            rw [List.filter_append]
            simp [hc]
          rw [hstep]
          exact ih (seen ++ [value])
        · have hcond :
              ¬(1 < pycount L value ∧
                value ∉ seen.filter (fun x => decide (1 < pycount L x))) := by
            rintro ⟨hc', _⟩; exact hc hc'
          rw [if_neg hcond]
          have hstep :
              seen.filter (fun x => decide (1 < pycount L x)) =
                (seen ++ [value]).filter (fun x => decide (1 < pycount L x)) := by
            rw [List.filter_append]
            simp [hc]
          rw [hstep]
          exact ih (seen ++ [value])

/-- Closed form of the `.count()`-based scan: the duplicates list is the
first-occurrence deduplication of `L`, filtered to values occurring more
than once. -/
theorem find_duplicates_eq (L : List α) :
    find_duplicates L =
      (firstOccs L).filter (fun x => decide (1 < pycount L x)) := by
  simpa [find_duplicates, firstOccs] using dupLoop_eq L L []

/-- Membership in the result of the dedup loop. -/
theorem mem_dedupLoop (rest : List α) :
    ∀ (seen : List α) (x : α),
      x ∈ dedupLoop seen rest ↔ x ∈ seen ∨ x ∈ rest := by
  induction rest with
  | nil => intro seen x; simp [dedupLoop]
  | cons v rest ih =>
      intro seen x
      simp only [dedupLoop]
      by_cases hv : v ∈ seen
      · rw [if_pos hv, ih]
        constructor
        · rintro (h | h)
          · exact Or.inl h
          · exact Or.inr (List.mem_cons_of_mem _ h)
        · rintro (h | h)
          · exact Or.inl h
          · rcases List.mem_cons.1 h with rfl | h
            · exact Or.inl hv
            · exact Or.inr h
      · rw [if_neg hv, ih]
        simp only [List.mem_append, List.mem_singleton, List.mem_cons]
        tauto

/-- The dedup loop keeps the accumulator repeat-free. -/
theorem nodup_dedupLoop (rest : List α) :
    ∀ seen : List α, seen.Nodup → (dedupLoop seen rest).Nodup := by
  induction rest with
  | nil => intro seen h; exact h
  | cons v rest ih =>
      intro seen h
      simp only [dedupLoop]
      by_cases hv : v ∈ seen
      · rw [if_pos hv]; exact ih seen h
      · rw [if_neg hv]
        refine ih _ ?_
        exact List.Nodup.append h (List.nodup_singleton v)
          (by simpa [List.disjoint_singleton] using hv)

/-- The dedup loop lists values in order of first occurrence: with the
processed prefix `pre` of `L` recorded, the accumulator stays sorted by
index of first occurrence in `L`. -/
theorem pairwise_dedupLoop (L : List α) :
    ∀ rest pre seen : List α, L = pre ++ rest →
      (∀ a ∈ seen, a ∈ pre) → (∀ x ∈ pre, x ∈ seen) →
      seen.Pairwise (fun a b => List.indexOf a L < List.indexOf b L) →
      (dedupLoop seen rest).Pairwise
        (fun a b => List.indexOf a L < List.indexOf b L) := by
  intro rest
  induction rest with
  | nil => intro pre seen _ _ _ h; exact h
  | cons v rest ih =>
      intro pre seen hL hsub hcomp hord
      simp only [dedupLoop]
      by_cases hv : v ∈ seen
      · rw [if_pos hv]
        refine ih (pre ++ [v]) seen (by simp [hL]) ?_ ?_ hord
        · intro a ha; exact List.mem_append_left _ (hsub a ha)
        · intro x hx
          rcases List.mem_append.1 hx with h | h
          · exact hcomp x h
          · rcases List.mem_singleton.1 h with rfl; exact hv
      · rw [if_neg hv]
        have hvpre : v ∉ pre := fun h => hv (hcomp v h)
        refine ih (pre ++ [v]) (seen ++ [v]) (by simp [hL]) ?_ ?_ ?_
        · intro a ha
          rcases List.mem_append.1 ha with h | h
          · exact List.mem_append_left _ (hsub a h)
          · exact List.mem_append_right _ h
        · intro x hx
          rcases List.mem_append.1 hx with h | h
          · exact List.mem_append_left _ (hcomp x h)
          · exact List.mem_append_right _ h
        · rw [List.pairwise_append]
          refine ⟨hord, List.pairwise_singleton _ _, ?_⟩
          intro a ha b hb
          rcases List.mem_singleton.1 hb with rfl
          have hapre : a ∈ pre := hsub a ha
          have h1 : List.indexOf a L < pre.length := by
            rw [hL, List.indexOf_append_of_mem hapre]
            exact List.indexOf_lt_length.2 hapre
          have h2 : pre.length ≤ List.indexOf b L := by
            rw [hL, List.indexOf_append_of_not_mem hvpre]
            exact Nat.le_add_right _ _
          exact lt_of_lt_of_le h1 h2

/-- The first-occurrence list is sorted by index of first occurrence. -/
theorem pairwise_firstOccs (L : List α) :
    (firstOccs L).Pairwise (fun a b => List.indexOf a L < List.indexOf b L) :=
  pairwise_dedupLoop L L [] [] rfl (by simp) (by simp) List.Pairwise.nil

/-- The first-occurrence list has no repeats. -/
theorem nodup_firstOccs (L : List α) : (firstOccs L).Nodup :=
  nodup_dedupLoop L [] List.nodup_nil

/-- A value is in the output of the scan exactly when it occurs more than
once in the input. -/
theorem mem_find_duplicates {L : List α} {x : α} :
    x ∈ find_duplicates L ↔ 1 < pycount L x := by
  rw [find_duplicates_eq, List.mem_filter]
  constructor
  · rintro ⟨_, h⟩; simpa using h
  · intro h
    refine ⟨?_, by simpa using h⟩
    have hx : x ∈ L := by
      have h0 : 0 < List.count x L := lt_of_le_of_lt (Nat.zero_le 1) h
      exact List.count_pos_iff.1 h0
    simp [firstOccs, mem_dedupLoop, hx]

/-- The output of the scan has no repeats. -/
theorem nodup_find_duplicates (L : List α) : (find_duplicates L).Nodup := by
  rw [find_duplicates_eq]
  exact List.Nodup.filter _ (nodup_firstOccs L)

/-- The output of the scan is sorted by index of first occurrence in the
input. -/
theorem pairwise_find_duplicates (L : List α) :
    (find_duplicates L).Pairwise
      (fun a b => List.indexOf a L < List.indexOf b L) := by
  rw [find_duplicates_eq]
  exact List.Pairwise.sublist (List.filter_sublist _) (pairwise_firstOccs L)

/-- One iteration of the commented-out original attempt in
`flow/pixel_exercise.py`: `if value in duplicate_dict:
duplicate_dict[value] += 1 else: duplicate_dict[value] = 1`.  A Python
dict preserves insertion order of its keys, so it is modelled as an
association list: updating a present key keeps its position, a new key
is appended. -/
def bump (d : List (α × Nat)) (value : α) : List (α × Nat) :=
  if d.any (fun p => p.1 = value) then
    d.map (fun p => if p.1 = value then (p.1, p.2 + 1) else p)
  else d ++ [(value, 1)]

/-- The frequency dictionary built by the first loop of the original
attempt (the Counter stage of the spec). -/
def duplicate_dict (L : List α) : List (α × Nat) := L.foldl bump []

/-- The sequence of letters emitted by the second loop of the original
loop: `for letter, count in duplicate_dict.items(): if count > 1:
print(letter)`, in dict (insertion) order. -/
def dict_duplicates (L : List α) : List α :=
  ((duplicate_dict L).filter (fun p => 1 < p.2)).map Prod.fst

/-- The keys of the dictionary, in order, are the first-occurrence
deduplication of the values folded in. -/
theorem foldl_bump_keys (vs : List α) :
    ∀ d : List (α × Nat),
      (vs.foldl bump d).map Prod.fst = dedupLoop (d.map Prod.fst) vs := by
  induction vs with
  | nil => intro d; rfl
  | cons v vs ih =>
      intro d
      rw [List.foldl_cons]
      simp only [dedupLoop]
      by_cases hv : v ∈ d.map Prod.fst
      · rw [if_pos hv, ih (bump d v)]
        congr 1
        have hany : d.any (fun p => p.1 = v) = true := by
          rcases List.mem_map.1 hv with ⟨p, hp, hpv⟩
          exact List.any_eq_true.2 ⟨p, hp, by simpa using hpv⟩
        simp only [bump, if_pos hany]
        rw [List.map_map]
        refine List.map_congr_left ?_
        intro p _
        by_cases hpv : p.1 = v <;> simp [hpv]
      · rw [if_neg hv, ih (bump d v)]
        congr 1
        have hany : ¬d.any (fun p => p.1 = v) = true := by
          intro h
          rcases List.any_eq_true.1 h with ⟨p, hp, hpv⟩
          exact hv (List.mem_map.2 ⟨p, hp, by simpa using hpv⟩)
        simp [bump, hany]

/-- Every entry of the finished dictionary maps a key to its occurrence
count in the whole input: the fold adds one per processed occurrence. -/
theorem foldl_bump_counts (L : List α) (vs : List α) :
    ∀ d : List (α × Nat),
      (∀ q ∈ d, q.2 + pycount vs q.1 = pycount L q.1) →
      (∀ x ∈ vs, x ∉ d.map Prod.fst → pycount vs x = pycount L x) →
      ∀ q ∈ vs.foldl bump d, q.2 = pycount L q.1 := by
  induction vs with
  | nil =>
      intro d h1 _ q hq
      have := h1 q hq
      simpa [pycount] using this
  | cons v vs ih =>
      intro d h1 h2 q hq
      rw [List.foldl_cons] at hq
      by_cases hv : v ∈ d.map Prod.fst
      · have hany : d.any (fun p => p.1 = v) = true := by
          rcases List.mem_map.1 hv with ⟨p, hp, hpv⟩
          exact List.any_eq_true.2 ⟨p, hp, by simpa using hpv⟩
        refine ih (bump d v) ?_ ?_ q hq
        · intro q' hq'
          simp only [bump, if_pos hany] at hq'
          rcases List.mem_map.1 hq' with ⟨p, hp, hpq⟩
          by_cases hpv : p.1 = v
          · rw [if_pos hpv] at hpq
            subst hpq
            have := h1 p hp
            simp only [pycount, List.count_cons, hpv] at this ⊢
            simp [hpv] at this ⊢
            omega
          · rw [if_neg hpv] at hpq
            subst hpq
            have := h1 p hp
            simp only [pycount, List.count_cons] at this ⊢
            have hne : ¬v = p.1 := fun h => hpv h.symm
            simp [hne] at this ⊢
            omega
        · intro x hx hxd
          have hxd' : x ∉ d.map Prod.fst := by
            simp only [bump, if_pos hany] at hxd
            intro hmem
            apply hxd
            rw [List.map_map]
            rcases List.mem_map.1 hmem with ⟨p, hp, hpx⟩
            refine List.mem_map.2 ⟨p, hp, ?_⟩
            have hfst :
                ((if p.1 = v then (p.1, p.2 + 1) else p) : α × Nat).1 = p.1 := by
              by_cases hpv : p.1 = v <;> simp [hpv]
            show (Prod.fst ∘ fun p : α × Nat =>
              if p.1 = v then (p.1, p.2 + 1) else p) p = x
            simp only [Function.comp_apply]
            rw [hfst, hpx]
          have hxv : x ≠ v := by
            intro h; subst h; exact hxd' hv
          have := h2 x (List.mem_cons_of_mem _ hx) hxd'
          simp only [pycount, List.count_cons] at this ⊢
          have hne : ¬v = x := fun h => hxv h.symm
          simp [hne] at this ⊢
          omega
      · have hany : ¬d.any (fun p => p.1 = v) = true := by
          intro h
          rcases List.any_eq_true.1 h with ⟨p, hp, hpv⟩
          exact hv (List.mem_map.2 ⟨p, hp, by simpa using hpv⟩)
        refine ih (bump d v) ?_ ?_ q hq
        · intro q' hq'
          simp only [bump, if_neg hany] at hq'
          rcases List.mem_append.1 hq' with hp | hp
          · have hkey : q'.1 ∈ d.map Prod.fst := List.mem_map.2 ⟨q', hp, rfl⟩
            have hne : q'.1 ≠ v := fun h => hv (h ▸ hkey)
            have := h1 q' hp
            simp only [pycount, List.count_cons] at this ⊢
            have hne' : ¬v = q'.1 := fun h => hne h.symm
            simp [hne'] at this ⊢
            omega
          · rcases List.mem_singleton.1 hp with rfl
            have := h2 v (List.mem_cons_self v vs) hv
            simp only [pycount, List.count_cons] at this ⊢
            simp at this ⊢
            omega
        · intro x hx hxd
          have hxd' : x ∉ d.map Prod.fst := by
            simp only [bump, if_neg hany, List.map_append] at hxd
            intro hmem
            exact hxd (List.mem_append_left _ hmem)
          have hxv : x ≠ v := by
            intro h
            subst h
            apply hxd
            simp [bump, hany]
          have := h2 x (List.mem_cons_of_mem _ hx) hxd'
          simp only [pycount, List.count_cons] at this ⊢
          have hne : ¬v = x := fun h => hxv h.symm
          simp [hne] at this ⊢
          omega

/-- The key sequence of the dictionary is the first-occurrence list. -/
theorem duplicate_dict_keys (L : List α) :
    (duplicate_dict L).map Prod.fst = firstOccs L := by
  simpa [firstOccs] using foldl_bump_keys L []

omit [DecidableEq α] in
/-- Mapping keys out of a key-filtered association list is filtering the
key sequence. -/
theorem map_fst_filter (f : α → Bool) :
    ∀ d : List (α × Nat),
      (d.filter (fun p => f p.1)).map Prod.fst = (d.map Prod.fst).filter f := by
  intro d
  induction d with
  | nil => rfl
  | cons p d ih =>
      by_cases hp : f p.1 <;> simp [List.filter_cons, hp, ih]

/-- The commented-out dictionary algorithm emits exactly the sequence
the active `.count()`-based scan produces. -/
theorem dict_duplicates_eq (L : List α) :
    dict_duplicates L = find_duplicates L := by
  rw [find_duplicates_eq]
  have hcnt : ∀ q ∈ duplicate_dict L, q.2 = pycount L q.1 :=
    foldl_bump_counts L L [] (by simp) (fun x _ _ => rfl)
  have hfc : (duplicate_dict L).filter (fun p => decide (1 < p.2)) =
      (duplicate_dict L).filter (fun p => decide (1 < pycount L p.1)) := by
    refine List.filter_congr ?_
    intro q hq
    rw [hcnt q hq]
  show ((duplicate_dict L).filter (fun p => decide (1 < p.2))).map Prod.fst =
    (firstOccs L).filter (fun x => decide (1 < pycount L x))
  rw [hfc, map_fst_filter (fun x => decide (1 < pycount L x)),
    duplicate_dict_keys]

/-- An instance of the `MyGen` class of `generators/main.py`: `__init__`
stores `first` and `last` on the instance.  The class attribute
`MyGen.current` is modelled separately, as the ambient state threaded
through iteration, because the source reads and writes `MyGen.current`,
never `self.first`. -/
structure MyGen where
  first : Int
  last : Int

/-- One call of `MyGen.__next__` given the class attribute
`MyGen.current = cur`: if `MyGen.current < self.last` it returns
`MyGen.current` and increments it, else it raises `StopIteration`
(modelled as `none`); the class attribute is returned alongside. -/
def MyGen.next (g : MyGen) (cur : Int) : Option Int × Int :=
  if cur < g.last then (some cur, cur + 1) else (none, cur)

/-- Exhausting a `for` loop over `g`: call `__next__` until
`StopIteration`, collecting the yielded values; returns the values and
the final class attribute `MyGen.current`. -/
def MyGen.run (g : MyGen) (cur : Int) : List Int × Int :=
  match h : g.next cur with
  | (some v, cur') =>
      have : (g.last - cur').toNat < (g.last - cur).toNat := by
        simp only [MyGen.next] at h
        split at h
        · rename_i hlt
          cases h
          omega
        · cases h
      let r := MyGen.run g cur'
      (v :: r.1, r.2)
  | (none, cur') => ([], cur')
termination_by (g.last - cur).toNat

/-- The consecutive integers from `cur` up to `stop - 1`. -/
def intRange (cur stop : Int) : List Int :=
  (List.range (stop - cur).toNat).map (fun i : Nat => cur + (i : Int))

example : intRange 0 8 = [0, 1, 2, 3, 4, 5, 6, 7] := by decide

/-- Unfolding one `__next__` call of the iteration. -/
theorem MyGen.run_unfold (g : MyGen) (cur : Int) :
    g.run cur =
      if cur < g.last then (cur :: (g.run (cur + 1)).1, (g.run (cur + 1)).2)
      else ([], cur) := by
  rw [MyGen.run]
  split
  · rename_i v cur' heq
    simp only [MyGen.next] at heq
    split at heq
    · rename_i hlt
      cases heq
      rw [if_pos hlt]
    · cases heq
  · rename_i cur' heq
    simp only [MyGen.next] at heq
    split at heq
    · cases heq
    · rename_i hge
      cases heq
      rw [if_neg hge]

/-- Consecutive integers, peeled at the front. -/
theorem intRange_cons {cur stop : Int} (h : cur < stop) :
    intRange cur stop = cur :: intRange (cur + 1) stop := by
  unfold intRange
  have h1 : (stop - cur).toNat = (stop - (cur + 1)).toNat + 1 := by omega
  rw [h1, List.range_succ_eq_map, List.map_cons, List.map_map]
  refine congrArg₂ _ (by simp) ?_
  refine List.map_congr_left ?_
  intro i _
  simp only [Function.comp_apply]
  push_cast
  ring

/-- An empty run of consecutive integers. -/
theorem intRange_eq_nil {cur stop : Int} (h : stop ≤ cur) :
    intRange cur stop = [] := by
  unfold intRange
  rw [Int.toNat_of_nonpos (by omega)]
  rfl

/-- Closed form of the iteration: the values yielded are the integers
from the incoming class attribute `MyGen.current` up to `last - 1`, and
the class attribute is left at `max current last`. -/
theorem MyGen.run_closed (g : MyGen) (cur : Int) :
    g.run cur = (intRange cur g.last, max cur g.last) := by
  have key : ∀ (n : Nat) (c : Int), (g.last - c).toNat = n →
      g.run c = (intRange c g.last, max c g.last) := by
    intro n
    induction n using Nat.strong_induction_on with
    | _ n ih =>
        intro c hn
        rw [MyGen.run_unfold]
        by_cases h : c < g.last
        · rw [if_pos h, ih ((g.last - (c + 1)).toNat) (by omega) (c + 1) rfl]
          rw [intRange_cons h]
          have hmax : max (c + 1) g.last = max c g.last := by omega
          rw [hmax]
        · rw [if_neg h, intRange_eq_nil (by omega)]
          have hmax : max c g.last = c := max_eq_left (by omega)
          rw [hmax]
  exact key _ cur rfl

/-- The function `highest_even` of `functions/highest_even_ex.py`:
`highest = 0`, then for each `num`, `if num % 2 == 0 and num > highest:
highest = num`; the final `highest` is reported. -/
def highest_even (li : List Int) : Int :=
  li.foldl (fun highest num =>
    if num % 2 = 0 ∧ highest < num then num else highest) 0

example : highest_even [10, 2, 3, 4, 8, 11, 44] = 44 := by decide

example : highest_even [-4, -2, 3] = 0 := by decide

/-- The running maximum of `highest_even` never drops below its start
value. -/
theorem highest_even_foldl_le (li : List Int) :
    ∀ acc : Int,
      acc ≤ li.foldl (fun highest num =>
        if num % 2 = 0 ∧ highest < num then num else highest) acc := by
  induction li with
  | nil => intro acc; exact le_refl acc
  | cons num li ih =>
      intro acc
      rw [List.foldl_cons]
      by_cases h : num % 2 = 0 ∧ acc < num
      · rw [if_pos h]
        exact le_trans (le_of_lt h.2) (ih num)
      · rw [if_neg h]
        exact ih acc

/-- If no element of the list beats the accumulator while being even,
the accumulator survives the scan. -/
theorem highest_even_foldl_stays (li : List Int) :
    ∀ acc : Int, (∀ x ∈ li, x % 2 = 0 → x ≤ acc) →
      li.foldl (fun highest num =>
        if num % 2 = 0 ∧ highest < num then num else highest) acc = acc := by
  induction li with
  | nil => intro acc _; rfl
  | cons num li ih =>
      intro acc h
      rw [List.foldl_cons]
      have hnum : ¬(num % 2 = 0 ∧ acc < num) := by
        rintro ⟨he, hlt⟩
        exact absurd (h num (List.mem_cons_self num li) he) (not_le.2 hlt)
      rw [if_neg hnum]
      exact ih acc (fun x hx => h x (List.mem_cons_of_mem _ hx))

/-- One iteration of the `fib` loop of `generators/fib_ex.py`:
`fib_seq.append(fib_seq[i - 2] + fib_seq[i - 1])` (out-of-range indexing
never occurs on the traced executions; `getD` supplies a default). -/
def fibStep (fib_seq : List Nat) (i : Nat) : List Nat :=
  fib_seq ++ [fib_seq.getD (i - 2) 0 + fib_seq.getD (i - 1) 0]

/-- The list-based `fib` of `generators/fib_ex.py`: start from
`fib_seq = [0, 1]`, return early for `num = 0` and `num = 1`, otherwise
run the loop `for i in range(2, num + 1)` and return `fib_seq[num]`. -/
def fib (num : Nat) : Nat :=
  if num = 0 then [0, 1].getD 0 0
  else if num = 1 then [0, 1].getD 1 0
  else ((List.range' 2 (num - 1)).foldl fibStep [0, 1]).getD num 0

example : fib 20 = 6765 := by decide

/-- The loop of `fib_gen` of `generators/fib_ex.py`, with `n` iterations
remaining and locals `a`, `b`: each iteration yields `a` and then runs
`temp = a; a = b; b = temp + b`. -/
def fibGenLoop : Nat → Nat → Nat → List Nat
  | 0, _, _ => []
  | n + 1, a, b => a :: fibGenLoop n b (a + b)

/-- The sequence of values yielded by `fib_gen(num)`: the loop runs
`for i in range(num + 1)` starting from `a = 0`, `b = 1`. -/
def fib_gen (num : Nat) : List Nat := fibGenLoop (num + 1) 0 1

example : fib_gen 5 = [0, 1, 1, 2, 3, 5] := by decide

/-- Reading an entry of a mapped range. -/
theorem getD_map_range (f : Nat → Nat) {i n : Nat} (h : i < n) :
    ((List.range n).map f).getD i 0 = f i := by
  rw [List.getD_eq_getElem?_getD, List.getElem?_map, List.getElem?_range h]
  rfl

/-- Starting the generator loop at two consecutive Fibonacci numbers
yields consecutive Fibonacci numbers. -/
theorem fibGenLoop_eq (n : Nat) :
    ∀ k : Nat,
      fibGenLoop n (Nat.fib k) (Nat.fib (k + 1)) =
        (List.range n).map (fun i => Nat.fib (k + i)) := by
  induction n with
  | zero => intro k; rfl
  | succ n ih =>
      intro k
      simp only [fibGenLoop]
      have hb : Nat.fib k + Nat.fib (k + 1) = Nat.fib (k + 2) :=
        (Nat.fib_add_two).symm
      rw [hb, ih (k + 1), List.range_succ_eq_map, List.map_cons, List.map_map]
      refine congrArg₂ _ (by rw [Nat.add_zero]) ?_
      refine List.map_congr_left ?_
      intro i _
      simp only [Function.comp_apply]
      congr 1
      omega

/-- The values yielded by `fib_gen(num)` are the first `num + 1`
Fibonacci numbers. -/
theorem fib_gen_eq (num : Nat) :
    fib_gen num = (List.range (num + 1)).map Nat.fib := by
  have h : fib_gen num = fibGenLoop (num + 1) (Nat.fib 0) (Nat.fib (0 + 1)) :=
    rfl
  rw [h, fibGenLoop_eq (num + 1) 0]
  refine List.map_congr_left ?_
  intro i _
  rw [Nat.zero_add]

/-- The list built by the `fib` loop holds the Fibonacci numbers. -/
theorem fib_foldl_eq (k : Nat) :
    (List.range' 2 k).foldl fibStep [0, 1] =
      (List.range (k + 2)).map Nat.fib := by
  induction k with
  | zero => rfl
  | succ k ih =>
      rw [List.range'_concat, List.foldl_append, ih]
      simp only [List.foldl_cons, List.foldl_nil, fibStep]
      have hg1 : ((List.range (k + 2)).map Nat.fib).getD (2 + 1 * k - 2) 0 =
          Nat.fib k := by
        have : 2 + 1 * k - 2 = k := by omega
        rw [this]
        exact getD_map_range Nat.fib (by omega)
      have hg2 : ((List.range (k + 2)).map Nat.fib).getD (2 + 1 * k - 1) 0 =
          Nat.fib (k + 1) := by
        have : 2 + 1 * k - 1 = k + 1 := by omega
        rw [this]
        exact getD_map_range Nat.fib (by omega)
      rw [hg1, hg2]
      have hsucc : k + 1 + 2 = k + 2 + 1 := by omega
      rw [hsucc, List.range_succ (k + 2), List.map_append]
      refine congrArg₂ _ rfl ?_
      rw [List.map_singleton]
      refine congrArg₂ _ ?_ rfl
      exact (Nat.fib_add_two).symm

/-- The list-based `fib` computes the Fibonacci numbers. -/
theorem fib_eq (num : Nat) : fib num = Nat.fib num := by
  unfold fib
  by_cases h0 : num = 0
  · rw [if_pos h0, h0]; rfl
  · rw [if_neg h0]
    by_cases h1 : num = 1
    · rw [if_pos h1, h1]; rfl
    · rw [if_neg h1, fib_foldl_eq (num - 1)]
      have hlen : num - 1 + 2 = num + 1 := by omega
      rw [hlen]
      exact getD_map_range Nat.fib (by omega)

/-- A value is a duplicate (set-comprehension contents) exactly when it
occurs more than once. -/
theorem mem_duplicates_set {L : List α} {x : α} :
    x ∈ duplicates_set L ↔ 1 < pycount L x := by
  unfold duplicates_set
  rw [List.mem_toFinset, List.mem_filter]
  constructor
  · rintro ⟨_, h⟩; simpa using h
  · intro h
    refine ⟨?_, by simpa using h⟩
    exact List.count_pos_iff.1 (lt_of_le_of_lt (Nat.zero_le 1) h)

/-- C1, counterexample: on the input `[1, 2, 1, 3, 2, 2]`, `[2, 1]` is a
possible output of the set-comprehension implementation (a repeat-free
listing of its set), yet it is not ordered by first occurrence in the
input, so the order claim fails for that implementation. -/
theorem setComp_order_counterexample :
    IsSetListing (duplicates_set [1, 2, 1, 3, 2, 2]) ([2, 1] : List Nat) ∧
    ¬(([2, 1] : List Nat).Pairwise
      (fun a b =>
        List.indexOf a [1, 2, 1, 3, 2, 2] <
          List.indexOf b [1, 2, 1, 3, 2, 2])) := by
  constructor
  · exact ⟨by decide, by decide⟩
  · decide

/-- C1 (amended): the order of `find_duplicates(S)` matches the order of
first occurrence in `S` for the `.count()`-based scan; the
set-comprehension version yields exactly the same items, but as a Python
set, with no guaranteed order. -/
theorem find_duplicates_order (L : List α) :
    (find_duplicates L).Pairwise
      (fun a b => List.indexOf a L < List.indexOf b L) ∧
    (find_duplicates L).toFinset = duplicates_set L := by
  refine ⟨pairwise_find_duplicates L, ?_⟩
  ext x
  rw [List.mem_toFinset, mem_find_duplicates, mem_duplicates_set]

/-- C2: soundness of the scan: every value it returns occurs at least
twice in the input. -/
theorem find_duplicates_sound (L : List α) (x : α)
    (h : x ∈ find_duplicates L) : 2 ≤ pycount L x :=
  mem_find_duplicates.1 h

/-- C2, witness at the worked example input of the script. -/
theorem find_duplicates_sound_witness :
    2 ≤ pycount ["a", "b", "c", "b", "d", "m", "n", "n"] "b" :=
  find_duplicates_sound ["a", "b", "c", "b", "d", "m", "n", "n"] "b"
    (by decide)

/-- C3: completeness and uniqueness of the scan: every value occurring
at least twice in the input appears exactly once in the output, and the
output has no repeats. -/
theorem find_duplicates_complete (L : List α) (x : α)
    (h : 2 ≤ pycount L x) :
    List.count x (find_duplicates L) = 1 ∧ (find_duplicates L).Nodup :=
  ⟨List.count_eq_one_of_mem (nodup_find_duplicates L)
      (mem_find_duplicates.2 h),
    nodup_find_duplicates L⟩

/-- C3, witness at the worked example input of the script. -/
theorem find_duplicates_complete_witness :
    List.count "n" (find_duplicates ["a", "b", "c", "b", "d", "m", "n", "n"]) =
        1 ∧
      (find_duplicates ["a", "b", "c", "b", "d", "m", "n", "n"]).Nodup :=
  find_duplicates_complete ["a", "b", "c", "b", "d", "m", "n", "n"] "n"
    (by decide)

/-- C4, counterexample: on the worked example the set-comprehension
implementation may list its set as `["n", "b"]`, which is not
`["b", "n"]`, so "returns exactly `["b", "n"]` in that order" fails for
that implementation. -/
theorem setComp_example_counterexample :
    IsSetListing (duplicates_set ["a", "b", "c", "b", "d", "m", "n", "n"])
        (["n", "b"] : List String) ∧
      (["n", "b"] : List String) ≠ ["b", "n"] := by
  constructor
  · exact ⟨by decide, by decide⟩
  · decide

/-- C4 (amended): on the worked example the `.count()`-based scan
returns exactly `["b", "n"]`, in that order; the set-comprehension
version returns exactly the items `"b"` and `"n"`, but as a set, in no
guaranteed order. -/
theorem find_duplicates_example :
    find_duplicates ["a", "b", "c", "b", "d", "m", "n", "n"] = ["b", "n"] ∧
      duplicates_set ["a", "b", "c", "b", "d", "m", "n", "n"] =
        ({"b", "n"} : Finset String) := by
  constructor
  · decide
  · decide

/-- C5: the commented-out original attempt (count occurrences into an
insertion-ordered dict, then emit each key with count > 1 once, in dict
order) produces the same output sequence as the active `.count()`-based
scan, on every input. -/
theorem dict_scan_agree (L : List α) :
    dict_duplicates L = find_duplicates L :=
  dict_duplicates_eq L

/-- C6: on the empty input the scan returns the empty sequence and the
Counter stage yields an empty frequency map. -/
theorem find_duplicates_nil :
    find_duplicates ([] : List α) = [] ∧
      duplicate_dict ([] : List α) = [] :=
  ⟨rfl, rfl⟩

/-- C7: applying the scan to its own output (which has no repeats)
yields the empty sequence. -/
theorem find_duplicates_self_annihilating (L : List α) :
    find_duplicates (find_duplicates L) = [] := by
  have hnd : (find_duplicates L).Nodup := nodup_find_duplicates L
  rw [find_duplicates_eq]
  refine List.filter_eq_nil_iff.2 ?_
  intro a _
  have hc := List.nodup_iff_count_le_one.1 hnd a
  simp only [pycount, decide_eq_true_eq]
  omega

/-- C8: `MyGen.__next__` reads the class attribute `MyGen.current`, not
`self.first`: the run of an instance is independent of `first`, yields
the consecutive integers from the incoming `MyGen.current` up to
`last - 1`, and after an instance with limit `L` is exhausted, a fresh
instance with limit `L2 ≤ L` yields nothing. -/
theorem myGen_shared_state (f1 f2 c L L2 : Int) (h : L2 ≤ L) :
    (MyGen.mk f1 L).run c = (MyGen.mk f2 L).run c ∧
      ((MyGen.mk f1 L).run c).1 = intRange c L ∧
      ((MyGen.mk f2 L2).run ((MyGen.mk f1 L).run c).2).1 = [] := by
  have e1 := MyGen.run_closed (MyGen.mk f1 L) c
  have e2 := MyGen.run_closed (MyGen.mk f2 L) c
  refine ⟨e1.trans e2.symm, by rw [e1], ?_⟩
  rw [e1]
  show ((MyGen.mk f2 L2).run (max c L)).1 = []
  rw [MyGen.run_closed]
  show intRange (max c L) L2 = []
  exact intRange_eq_nil (by omega)

/-- C8, witness: with `MyGen.current` at 0, `MyGen(5, 8)` yields the
integers below 8 regardless of `first`, and a fresh `MyGen(7, 3)` then
yields nothing. -/
theorem myGen_shared_state_witness :
    (MyGen.mk 5 8).run 0 = (MyGen.mk 7 8).run 0 ∧
      ((MyGen.mk 5 8).run 0).1 = intRange 0 8 ∧
      ((MyGen.mk 7 3).run ((MyGen.mk 5 8).run 0).2).1 = [] :=
  myGen_shared_state 5 7 0 8 3 (by decide)

/-- C9: `highest_even` starts its running maximum at 0, so on any list
with no positive even number it reports 0, and on any list at all it
never reports a negative number (hence never a negative even). -/
theorem highest_even_no_positive_even (li li' : List Int)
    (h : ∀ x ∈ li, x % 2 = 0 → x ≤ 0) :
    highest_even li = 0 ∧ 0 ≤ highest_even li' :=
  ⟨highest_even_foldl_stays li 0 h, highest_even_foldl_le li' 0⟩

/-- C9, witness: a list whose only evens are negative reports 0, and a
list of negative evens reports a nonnegative value. -/
theorem highest_even_no_positive_even_witness :
    highest_even [-4, -2, 3] = 0 ∧ 0 ≤ highest_even [-8, -2] :=
  highest_even_no_positive_even [-4, -2, 3] [-8, -2] (by decide)

/-- C10: `fib_gen(n)` yields exactly `n + 1` values, its `i`-th value is
the `i`-th Fibonacci number, and its last value equals `fib(n)`. -/
theorem fib_gen_fib_agree (n i : Nat) (h : i ≤ n) :
    (fib_gen n).length = n + 1 ∧
      (fib_gen n).getD i 0 = Nat.fib i ∧
      (fib_gen n).getLast? = some (fib n) := by
  have he := fib_gen_eq n
  refine ⟨?_, ?_, ?_⟩
  · rw [he, List.length_map, List.length_range]
  · rw [he]
    exact getD_map_range Nat.fib (by omega)
  · rw [he, List.range_succ n, List.map_append, List.map_singleton,
      List.getLast?_concat, fib_eq]

/-- C10, witness at `n = 5`, `i = 3`. -/
theorem fib_gen_fib_agree_witness :
    (fib_gen 5).length = 5 + 1 ∧
      (fib_gen 5).getD 3 0 = Nat.fib 3 ∧
      (fib_gen 5).getLast? = some (fib 5) :=
  fib_gen_fib_agree 5 3 (by decide)

end Learning
